import Mathlib

/-!
Shallow embedding of the core of the mcp-filesystem server — the path
sandbox, the path-validation cache and the text-patch engine — translated
from the TypeScript source, together with theorems settling the frozen
claims about them.

Embedded source locations:
- the module validator and `PathValidationCache` in `src/utils/path.ts`;
- the standalone server entry with its own `validatePath` and
  `applyFileEdits`;
- `editFile` in `src/utils/tools.ts`.

JS strings are modelled as Lean `String` with hand-rolled, structurally
recursive character-list primitives so that every definition evaluates by
kernel reduction on concrete inputs.
-/

namespace MCPFS

/-! ## JS string primitives -/

/-- The core of the JS `\s` whitespace class as used by the regex `^\s*`
and by `trimStart` (ASCII whitespace plus NBSP and BOM; the exotic Unicode
space separators are omitted, none of the developments below use them). -/
def isJsWs (c : Char) : Bool :=
  c = ' ' || c = '\t' || c = '\n' || c = '\r' ||
  c = '\u000B' || c = '\u000C' || c = ' ' || c = '﻿'

/-- `s.split(sep)` for a single separator character, JS semantics: the
split of the empty string is `[""]`, never the empty list. -/
def splitCharAux (sep : Char) : List Char → List (List Char)
  | [] => [[]]
  | c :: cs =>
    if c = sep then [] :: splitCharAux sep cs
    else
      match splitCharAux sep cs with
      | [] => [[c]]
      | h :: t => (c :: h) :: t

/-- `s.split(sep)` on strings. -/
def splitChar (sep : Char) (s : String) : List String :=
  (splitCharAux sep s.data).map String.mk

/-- `str.split('\n')` as used by the edit loop. -/
def splitNl (s : String) : List String := splitChar '\n' s

/-- `arr.join(sep)`. -/
def joinSep (sep : String) : List String → String
  | [] => ""
  | [l] => l
  | l :: ls => l ++ sep ++ joinSep sep ls

/-- `arr.join('\n')`. -/
def joinNl : List String → String := joinSep "\n"

/-- `str.replace(/\r\n/g, "\n")`: a left-to-right, non-overlapping pass. -/
def replaceCrLfAux : List Char → List Char
  | [] => []
  | [c] => [c]
  | c1 :: c2 :: cs =>
    if c1 = '\r' && c2 = '\n' then '\n' :: replaceCrLfAux cs
    else c1 :: replaceCrLfAux (c2 :: cs)

/-- `str.replace(/\r\n/g, "\n")` on strings. -/
def replaceCrLf (s : String) : String := String.mk (replaceCrLfAux s.data)

/-- `s.match(/^\s*/)[0]` — the longest leading whitespace run. -/
def leadingWs (s : String) : String := String.mk (s.data.takeWhile isJsWs)

/-- `s.trimStart()`. -/
def trimStartJs (s : String) : String := String.mk (s.data.dropWhile isJsWs)

/-- Bare character-list prefix test. -/
def listStarts : List Char → List Char → Bool
  | _, [] => true
  | [], _ :: _ => false
  | a :: as, b :: bs => a = b && listStarts as bs

/-- `s.startsWith(pre)` — a bare string-prefix test, exactly as the
containment checks of both validators use it. -/
def strStartsWith (s pre : String) : Bool := listStarts s.data pre.data

/-! ## Patch engine -/

/-- One `{oldText, newText}` edit operation (`EditOperation` schema). -/
structure EditOp where
  oldText : String
  newText : String
deriving Repr, DecidableEq

/-- The failures thrown by the edit loop: the (dead) guard
`Edit operation contains empty oldText` — an `InvalidArgumentsError` in
`editFile`, a plain `Error` in the standalone `applyFileEdits` — and
`Could not find exact match for edit` carrying the raw `oldText`. -/
inductive EditErr
  | emptyOldText
  | editNotFound (oldText : String)
deriving Repr, DecidableEq

/-- The text result of an edit call. The unified diff produced by the
external `createTwoFilesPatch` collaborator (plus its backtick fencing) is
kept symbolic as the pair of texts handed to it; `noChanges` is the early
`No changes made` message that `editFile` returns when no edit applied. -/
inductive EditOutput
  | noChanges
  | diff (original modified : String)
deriving Repr, DecidableEq

/-- The matching loop
`for (let i = 0; i <= contentLines.length - oldLines.length; i++)`:
the first offset whose rejoined slice of `oldLines.length` lines equals the
normalized oldText wins; `none` when no offset matches (including when the
block is longer than the document, where the JS loop bound is negative). -/
def findFirstMatch (contentLines oldLines : List String) (normalizedOld : String) :
    Option Nat :=
  if contentLines.length < oldLines.length then none
  else
    (List.range (contentLines.length - oldLines.length + 1)).find?
      fun i => joinNl ((contentLines.drop i).take oldLines.length) == normalizedOld

/-- The indentation-preserving rewrite of the replacement lines: the first
line gets the anchor indent, later lines re-derive a relative indent when
both the old line (by position, `oldLines[j]?` defaulting to the empty
string) and the new line have non-empty leading whitespace (the JS
truthiness test `oldIndent && newIndent`); `Math.max(0, ...)` is Nat
subtraction. -/
def rewriteNewLines (originalIndent : String) (oldLines newLines : List String) :
    List String :=
  newLines.enum.map fun jl =>
    if jl.1 = 0 then originalIndent ++ trimStartJs jl.2
    else
      let oldIndent := leadingWs (oldLines.getD jl.1 "")
      let newIndent := leadingWs jl.2
      if oldIndent ≠ "" ∧ newIndent ≠ "" then
        originalIndent ++ String.mk (List.replicate (newIndent.length - oldIndent.length) ' ')
          ++ trimStartJs jl.2
      else jl.2

/-- `contentLines.splice(i, len, ...newLines)`. -/
def spliceAt (contentLines : List String) (i len : Nat) (newLines : List String) :
    List String :=
  contentLines.take i ++ newLines ++ contentLines.drop (i + len)

/-- The sequential edit loop shared verbatim by the standalone server's
`applyFileEdits` and by `editFile` in `src/utils/tools.ts`, threading the
progressively modified content and the `appliedAnyEdit` flag of the
latter. Each edit normalizes its own oldText and newText (CRLF to LF) but
the document text is split raw, exactly as in the source. -/
def applyEditsCore : String → Bool → List EditOp → Except EditErr (String × Bool)
  | modifiedContent, appliedAnyEdit, [] => .ok (modifiedContent, appliedAnyEdit)
  | modifiedContent, _appliedAnyEdit, edit :: rest =>
    let contentLines := splitNl modifiedContent
    let normalizedOld := replaceCrLf edit.oldText
    let normalizedNew := replaceCrLf edit.newText
    let oldLines := splitNl normalizedOld
    if oldLines.length = 0 then .error .emptyOldText
    else
      match findFirstMatch contentLines oldLines normalizedOld with
      | some i =>
        let originalIndent := leadingWs (contentLines.getD i "")
        let newLines := rewriteNewLines originalIndent oldLines (splitNl normalizedNew)
        applyEditsCore (joinNl (spliceAt contentLines i oldLines.length newLines)) true rest
      | none => .error (.editNotFound edit.oldText)

/-- `applyFileEdits` of the standalone server, with the on-disk content
made explicit: the second component is the file content after the call
(`fs.writeFile` runs only after every edit succeeded and only when not a
dry run). -/
def applyFileEdits (fileContent : String) (edits : List EditOp) (dryRun : Bool) :
    Except EditErr EditOutput × String :=
  match applyEditsCore fileContent false edits with
  | .error e => (.error e, fileContent)
  | .ok (modifiedContent, _) =>
    (.ok (.diff fileContent modifiedContent),
     if dryRun then fileContent else modifiedContent)

/-- `editFile` of `src/utils/tools.ts`: the same loop, plus the early
`No changes made` return (before the diff and before any write) when no
edit was applied. -/
def editFile (fileContent : String) (edits : List EditOp) (dryRun : Bool) :
    Except EditErr EditOutput × String :=
  match applyEditsCore fileContent false edits with
  | .error e => (.error e, fileContent)
  | .ok (modifiedContent, appliedAnyEdit) =>
    if !appliedAnyEdit then (.ok .noChanges, fileContent)
    else
      (.ok (.diff fileContent modifiedContent),
       if dryRun then fileContent else modifiedContent)

/-! ## Path sandbox

Both validators are embedded from the point where the raw candidate has
been home-expanded, made absolute against the working directory and
normalized — `path.resolve` / `path.normalize` on absolute POSIX paths are
implemented below — and the filesystem is a point-in-time `realpath`
oracle (`none` models resolution failure, ENOENT). -/

/-- `path.isAbsolute` (POSIX). -/
def isAbsolutePath (p : String) : Bool := strStartsWith p "/"

/-- One step of POSIX `path.resolve` segment processing: empty and `.`
segments vanish, `..` pops, anything else pushes. -/
def resolveSeg (stack : List String) (seg : String) : List String :=
  if seg = "" || seg = "." then stack
  else if seg = ".." then stack.dropLast
  else stack ++ [seg]

/-- `path.resolve` on an absolute POSIX path (also the behavior of
`path.normalize` on such inputs, which have no trailing separator). -/
def resolveAbs (p : String) : String :=
  "/" ++ joinSep "/" ((splitChar '/' p).foldl resolveSeg [])

/-- `normalizePath` = `path.normalize`, used only on absolute inputs. -/
def normalizePath (p : String) : String := resolveAbs p

/-- `path.dirname` on an absolute path: everything before the last
separator, or the root. -/
def dirname (p : String) : String :=
  match (splitChar '/' p).dropLast with
  | [] => p
  | [""] => "/"
  | segs => joinSep "/" segs

/-- `expandHome`: `path.join(os.homedir(), filepath.slice(1))` for a
leading `~/` or a bare `~`. -/
def expandHome (home filepath : String) : String :=
  if strStartsWith filepath "~/" || filepath = "~" then
    home ++ String.mk (filepath.data.drop 1)
  else filepath

/-- The `absolute` (equivalently `normalizedRequested`) path both
validators compute from the raw candidate. -/
def computeAbsolute (cwd home requestedPath : String) : String :=
  let expandedPath := expandHome home requestedPath
  if isAbsolutePath expandedPath then resolveAbs expandedPath
  else resolveAbs (cwd ++ "/" ++ expandedPath)

/-- Point-in-time filesystem: `fs.realpath` fully dereferences symlinks;
`none` models resolution failure (ENOENT). -/
structure FileSys where
  realpath : String → Option String

/-- `allowedDirectories.some((dir) => p.startsWith(dir))` — the containment
test both validators run, a bare string-prefix check. -/
def isPathAllowed (allowedDirectories : List String) (p : String) : Bool :=
  allowedDirectories.any fun dir => strStartsWith p dir

/-- The typed denials of the module validator in `src/utils/path.ts`:
`AccessDeniedError` (code ACCESS_DENIED) and `PathNotFoundError`
(code PATH_NOT_FOUND), carrying the offending path. -/
inductive PathError
  | accessDenied (path : String)
  | pathNotFound (path : String)
deriving Repr, DecidableEq

/-- `validatePath` of `src/utils/path.ts` (the cache probe above the cited
region is omitted; a cold call reaches this logic unconditionally). The
outer catch re-throws anything whose code is not ENOENT, so the symlink
and parent `AccessDeniedError` throws propagate, and `PathNotFoundError`
arises only when the parent itself fails to resolve. -/
def validatePathModule (allowedDirectories : List String) (fsx : FileSys)
    (cwd home requestedPath : String) : Except PathError String :=
  let absolute := computeAbsolute cwd home requestedPath
  let normalizedRequested := normalizePath absolute
  if !isPathAllowed allowedDirectories normalizedRequested then
    .error (.accessDenied absolute)
  else
    match fsx.realpath absolute with
    | some realPath =>
      let normalizedReal := normalizePath realPath
      if !isPathAllowed allowedDirectories normalizedReal then
        .error (.accessDenied absolute)
      else .ok realPath
    | none =>
      let parentDir := dirname absolute
      match fsx.realpath parentDir with
      | some realParentPath =>
        let normalizedParent := normalizePath realParentPath
        if !isPathAllowed allowedDirectories normalizedParent then
          .error (.accessDenied parentDir)
        else .ok absolute
      | none => .error (.pathNotFound parentDir)

/-- The errors the standalone server's `validatePath` can actually
surface: `Access denied - path outside allowed directories` from the
pre-resolution containment test, and `Parent directory does not exist
`. Its `Access denied - symlink target outside allowed directories` and
`Access denied - parent directory outside allowed directories` throws are
swallowed by its own catch-all handlers and can never reach a caller. -/
inductive ServerError
  | outsideAllowed (path : String)
  | parentNotFound (parent : String)
deriving Repr, DecidableEq

/-- The parent-directory fallback of the standalone `validatePath` — the
body of its outer `catch`. The inner `catch` is bare, so the
parent-outside-roots throw is converted into
`Parent directory does not exist`. -/
def serverParentFallback (allowedDirectories : List String) (fsx : FileSys)
    (absolute : String) : Except ServerError String :=
  let parentDir := dirname absolute
  match fsx.realpath parentDir with
  | some realParentPath =>
    let normalizedParent := normalizePath realParentPath
    if !isPathAllowed allowedDirectories normalizedParent then
      .error (.parentNotFound parentDir)
    else .ok absolute
  | none => .error (.parentNotFound parentDir)

/-- `validatePath` of the standalone server. Its `try` wraps both the
`fs.realpath` call and the symlink containment re-check, and the `catch`
catches every error from that block — so a failed symlink re-check falls
through to the parent-directory fallback instead of denying. -/
def validatePathServer (allowedDirectories : List String) (fsx : FileSys)
    (cwd home requestedPath : String) : Except ServerError String :=
  let absolute := computeAbsolute cwd home requestedPath
  let normalizedRequested := normalizePath absolute
  if !isPathAllowed allowedDirectories normalizedRequested then
    .error (.outsideAllowed absolute)
  else
    match fsx.realpath absolute with
    | some realPath =>
      let normalizedReal := normalizePath realPath
      if !isPathAllowed allowedDirectories normalizedReal then
        serverParentFallback allowedDirectories fsx absolute
      else .ok realPath
    | none => serverParentFallback allowedDirectories fsx absolute

/-! ### Concrete filesystem fixtures used by the closed theorems below -/

/-- A symlink `/allow/link` inside the allowed root `/allow` whose target
`/outside/secret` is outside every root; `/allow` itself is real. -/
def fsxSymlinkEscape : FileSys :=
  ⟨fun p =>
    if p = "/allow/link" then some "/outside/secret"
    else if p = "/allow" then some "/allow" else none⟩

/-- A sibling directory `/allowed-dirX` of the allowed root
`/allowed-dir`, existing and resolving to itself. -/
def fsxSibling : FileSys :=
  ⟨fun p => if p = "/allowed-dirX" then some "/allowed-dirX" else none⟩

/-- `/allow/sub/new.txt` does not exist; its parent `/allow/sub` is a
symlink resolving to `/outside/sub`, outside every root. -/
def fsxParentOutside : FileSys :=
  ⟨fun p => if p = "/allow/sub" then some "/outside/sub" else none⟩

/-! ## Path-validation cache

`PathValidationCache` in `src/utils/path.ts`: a JS `Map` (insertion-order
preserving association list; `set` on a present key updates in place,
`keys().next().value` is the first surviving key) plus the `setTimeout`
deletions, modelled as a list of pending `(key, fireTime)` events. -/

/-- Cache state: the `Map` entries in insertion order and the pending
`setTimeout` deletions (key and absolute fire time). -/
structure CacheState where
  entries : List (String × String)
  pending : List (String × Nat)
deriving Repr, DecidableEq

/-- A fresh cache. -/
def emptyCache : CacheState := ⟨[], []⟩

/-- `map.has(k)`. -/
def mapHasKey : List (String × String) → String → Bool
  | [], _ => false
  | p :: m, k => p.1 == k || mapHasKey m k

/-- In-place value replacement for a present key (position preserved,
as a JS Map update). -/
def mapUpdate : List (String × String) → String → String → List (String × String)
  | [], _, _ => []
  | p :: m, k, v => (if p.1 == k then (k, v) else p) :: mapUpdate m k v

/-- `map.set(k, v)`: update in place when present, append otherwise. -/
def mapSet (m : List (String × String)) (k v : String) : List (String × String) :=
  if mapHasKey m k then mapUpdate m k v else m ++ [(k, v)]

/-- `map.delete(k)`. -/
def mapDelete : List (String × String) → String → List (String × String)
  | [], _ => []
  | p :: m, k => if p.1 == k then mapDelete m k else p :: mapDelete m k

/-- `map.get(k)`. -/
def mapGet : List (String × String) → String → Option String
  | [], _ => none
  | p :: m, k => if p.1 == k then some p.2 else mapGet m k

/-- `cache.keys().next().value` — the first (oldest surviving) key. -/
def oldestKey (m : List (String × String)) : Option String :=
  m.head?.map fun p => p.1

/-- The eviction step of `PathValidationCache.set`: when
`size >= maxSize`, delete the oldest key — but only when it is truthy
(`if (oldestKey)`), so an empty-string oldest key is never evicted. -/
def evictIfFull (maxSize : Nat) (m : List (String × String)) :
    List (String × String) :=
  if m.length ≥ maxSize then
    match oldestKey m with
    | some okey => if okey ≠ "" then mapDelete m okey else m
    | none => m
  else m

/-- `PathValidationCache.set`: evict if full, insert, then schedule a
deletion at `now + ttl` without cancelling any earlier timer for the same
key. -/
def cacheSet (maxSize ttl : Nat) (st : CacheState) (now : Nat) (k v : String) :
    CacheState :=
  { entries := mapSet (evictIfFull maxSize st.entries) k v
    pending := st.pending ++ [(k, now + ttl)] }

/-- The JS event loop at time `t`: every pending `setTimeout` whose fire
time has arrived runs its callback `() => this.cache.delete(path)`
unconditionally. -/
def fireDue (st : CacheState) (t : Nat) : CacheState :=
  { entries := st.entries.filter fun p =>
      !(st.pending.any fun q => q.1 == p.1 && decide (q.2 ≤ t))
    pending := st.pending.filter fun q => !(decide (q.2 ≤ t)) }

/-! ## Helper lemmas -/

/-- A JS split never yields the empty array. -/
theorem splitCharAux_ne_nil (sep : Char) (cs : List Char) : splitCharAux sep cs ≠ [] := by
  cases cs with
  | nil => simp [splitCharAux]
  | cons c cs =>
    unfold splitCharAux
    split
    · simp
    · split <;> simp

/-- `str.split('\n')` never yields the empty array, so the
`oldLines.length === 0` guard of the edit loop can never fire. -/
theorem splitNl_ne_nil (s : String) : splitNl s ≠ [] := by
  have h := splitCharAux_ne_nil '\n' s.data
  simp [splitNl, splitChar]
  intro hc
  exact h hc

/-- The sequential edit loop splits over list append. -/
theorem applyEditsCore_append (xs ys : List EditOp) (content : String) (b : Bool) :
    applyEditsCore content b (xs ++ ys) =
      match applyEditsCore content b xs with
      | .ok (d, b2) => applyEditsCore d b2 ys
      | .error e => .error e := by
  induction xs generalizing content b with
  | nil => rfl
  | cons e xs ih =>
    show applyEditsCore content b (e :: (xs ++ ys)) = _
    rw [applyEditsCore, applyEditsCore]
    dsimp only
    split
    · rfl
    · split
      · exact ih _ _
      · rfl

/-- Once the `appliedAnyEdit` flag is true, a successful loop keeps it. -/
theorem applyEditsCore_flag_mono (xs : List EditOp) (content d : String) (b2 : Bool)
    (h : applyEditsCore content true xs = .ok (d, b2)) : b2 = true := by
  induction xs generalizing content with
  | nil =>
    simp [applyEditsCore] at h
    exact h.2
  | cons e xs ih =>
    rw [applyEditsCore] at h
    dsimp only at h
    split at h
    · exact absurd h (by simp)
    · split at h
      · exact ih _ h
      · exact absurd h (by simp)

/-- A successful run over a non-empty edit list sets `appliedAnyEdit`. -/
theorem applyEditsCore_ok_flag (e : EditOp) (xs : List EditOp) (content d : String)
    (b b2 : Bool) (h : applyEditsCore content b (e :: xs) = .ok (d, b2)) : b2 = true := by
  rw [applyEditsCore] at h
  dsimp only at h
  split at h
  · exact absurd h (by simp)
  · split at h
    · exact applyEditsCore_flag_mono _ _ _ _ h
    · exact absurd h (by simp)

/-- Membership plus a prefix hit makes the containment test succeed. -/
theorem isPathAllowed_of_mem (allowedDirectories : List String) (dir p : String)
    (hmem : dir ∈ allowedDirectories) (hpre : strStartsWith p dir = true) :
    isPathAllowed allowedDirectories p = true := by
  simp [isPathAllowed, List.any_eq_true]
  exact ⟨dir, hmem, hpre⟩

/-! ## Path sandbox theorems (claims C1, C2, C3) -/

/-- The module validator (`src/utils/path.ts`) denies every existing
candidate whose real path fails the containment test, whether or not the
candidate's own normalized location passes it — its catch only absorbs
ENOENT, so the symlink `AccessDeniedError` propagates. This is the
behavior claim C1 describes. -/
theorem validatePathModule_denies_symlink_escape
    (allowedDirectories : List String) (fsx : FileSys) (cwd home p r : String)
    (hreal : fsx.realpath (computeAbsolute cwd home p) = some r)
    (hout : isPathAllowed allowedDirectories (normalizePath r) = false) :
    validatePathModule allowedDirectories fsx cwd home p =
      .error (.accessDenied (computeAbsolute cwd home p)) := by
  cases hA : isPathAllowed allowedDirectories (normalizePath (computeAbsolute cwd home p)) with
  | false => simp [validatePathModule, hA]
  | true => simp [validatePathModule, hA, hreal, hout]

/-- Claim C1 (code bug in the standalone server): `/allow/link` exists, its
real path `/outside/secret` fails the containment test, yet `validatePath`
returns it as a validated path — the symlink-denial throw is swallowed by
the catch-all handler and the allowed parent directory legitimizes the
candidate. The claim's required outcome (AccessDenied, no validated path)
holds for the module validator but not here. -/
theorem mcpC1_server_returns_symlink_escape :
    fsxSymlinkEscape.realpath "/allow/link" = some "/outside/secret" ∧
    isPathAllowed ["/allow"] (normalizePath "/outside/secret") = false ∧
    validatePathServer ["/allow"] fsxSymlinkEscape "/" "/root" "/allow/link" =
      .ok "/allow/link" := ⟨rfl, rfl, rfl⟩

/-- Counterexample to claim C2: containment is a bare string-prefix test,
so the normalized sibling `/allowed-dirX` is considered contained by the
allowed root `/allowed-dir`, and validating it succeeds instead of being
denied with AccessDenied. -/
theorem mcpC2_counterexample :
    strStartsWith (normalizePath (computeAbsolute "/" "/root" "/allowed-dirX"))
      "/allowed-dir" = true ∧
    validatePathServer ["/allowed-dir"] fsxSibling "/" "/root" "/allowed-dirX" =
      .ok "/allowed-dirX" := ⟨rfl, rfl⟩

/-- Claim C2 (amended): containment holds across a path-segment boundary
by bare string prefix: any candidate whose normalized absolute form merely
string-prefix-extends an allowed root passes the containment test of both
validators, and when it resolves to itself it is validated — in
particular the sibling `/allowed-dirX` of the root `/allowed-dir`. -/
theorem mcpC2_amended (allowedDirectories : List String) (dir : String)
    (fsx : FileSys) (cwd home p : String)
    (hmem : dir ∈ allowedDirectories)
    (hpre : strStartsWith (normalizePath (computeAbsolute cwd home p)) dir = true)
    (hself : fsx.realpath (computeAbsolute cwd home p) = some (computeAbsolute cwd home p)) :
    validatePathServer allowedDirectories fsx cwd home p =
      .ok (computeAbsolute cwd home p) ∧
    validatePathModule allowedDirectories fsx cwd home p =
      .ok (computeAbsolute cwd home p) := by
  have hA : isPathAllowed allowedDirectories (normalizePath (computeAbsolute cwd home p))
      = true := isPathAllowed_of_mem _ _ _ hmem hpre
  constructor
  · simp [validatePathServer, hA, hself]
  · simp [validatePathModule, hA, hself]

/-- Witness for C2 (amended) at the sibling-directory instance. -/
theorem mcpC2_amended_witness :
    validatePathServer ["/allowed-dir"] fsxSibling "/" "/root" "/allowed-dirX" =
      .ok "/allowed-dirX" ∧
    validatePathModule ["/allowed-dir"] fsxSibling "/" "/root" "/allowed-dirX" =
      .ok "/allowed-dirX" := by
  have h := mcpC2_amended ["/allowed-dir"] "/allowed-dir" fsxSibling "/" "/root"
    "/allowed-dirX" (by simp) rfl rfl
  simpa using h

/-- The module validator turns a resolvable parent that fails containment
into `AccessDeniedError` for the parent (its inner catch only absorbs
ENOENT), exactly as claim C3 requires. -/
theorem validatePathModule_parent_outside_denied
    (allowedDirectories : List String) (fsx : FileSys) (cwd home p rp : String)
    (hA : isPathAllowed allowedDirectories (normalizePath (computeAbsolute cwd home p)) = true)
    (hmiss : fsx.realpath (computeAbsolute cwd home p) = none)
    (hparent : fsx.realpath (dirname (computeAbsolute cwd home p)) = some rp)
    (hout : isPathAllowed allowedDirectories (normalizePath rp) = false) :
    validatePathModule allowedDirectories fsx cwd home p =
      .error (.accessDenied (dirname (computeAbsolute cwd home p))) := by
  simp [validatePathModule, hA, hmiss, hparent, hout]

/-- The module validator signals `PathNotFoundError` naming the missing
parent only when the parent itself fails to resolve. -/
theorem validatePathModule_parent_missing_not_found
    (allowedDirectories : List String) (fsx : FileSys) (cwd home p : String)
    (hA : isPathAllowed allowedDirectories (normalizePath (computeAbsolute cwd home p)) = true)
    (hmiss : fsx.realpath (computeAbsolute cwd home p) = none)
    (hpmiss : fsx.realpath (dirname (computeAbsolute cwd home p)) = none) :
    validatePathModule allowedDirectories fsx cwd home p =
      .error (.pathNotFound (dirname (computeAbsolute cwd home p))) := by
  simp [validatePathModule, hA, hmiss, hpmiss]

/-- Claim C3 (code bug in the standalone server): `/allow/sub/new.txt`
does not exist and its parent `/allow/sub` resolves to `/outside/sub`,
outside every allowed root — the claim requires AccessDenied, but the
server's inner bare catch converts its own parent-outside denial into
`Parent directory does not exist` (PathNotFound). The module validator
satisfies the claim. -/
theorem mcpC3_server_misreports_parent_escape :
    fsxParentOutside.realpath "/allow/sub/new.txt" = none ∧
    fsxParentOutside.realpath "/allow/sub" = some "/outside/sub" ∧
    isPathAllowed ["/allow"] (normalizePath "/outside/sub") = false ∧
    validatePathServer ["/allow"] fsxParentOutside "/" "/root" "/allow/sub/new.txt" =
      .error (.parentNotFound "/allow/sub") ∧
    validatePathModule ["/allow"] fsxParentOutside "/" "/root" "/allow/sub/new.txt" =
      .error (.accessDenied "/allow/sub") := ⟨rfl, rfl, rfl, rfl, rfl⟩

/-! ## Patch engine theorems (claims C4, C5, C6, C7) -/

/-- Counterexample to claim C4: the document `"a\r\nb"` and the edit's
oldText `"a\nb"` differ only in CRLF-versus-LF line endings (their
normalizations agree), yet the edit does not match — both edit entry
points fail with EditNotFound — because normalization is applied to the
edit's texts only, never to the document. -/
theorem mcpC4_counterexample :
    replaceCrLf "a\r\nb" = replaceCrLf "a\nb" ∧
    applyFileEdits "a\r\nb" [⟨"a\nb", "c"⟩] false =
      (.error (.editNotFound "a\nb"), "a\r\nb") ∧
    editFile "a\r\nb" [⟨"a\nb", "c"⟩] false =
      (.error (.editNotFound "a\nb"), "a\r\nb") := ⟨rfl, rfl, rfl⟩

/-- Claim C4 (amended): CRLF-to-LF normalization is applied to each
edit's oldText and newText but not to the document text, so a
CRLF-vs-LF difference is tolerated only on the edit side: oldText
`"a\r\nb"` matches the document `"a\nb"` after normalization, while
oldText `"a\nb"` fails against the document `"a\r\nb"` whose raw lines
keep their carriage returns. -/
theorem mcpC4_amended :
    applyFileEdits "a\nb" [⟨"a\r\nb", "c"⟩] false =
      (.ok (.diff "a\nb" "c"), "c") ∧
    applyFileEdits "a\r\nb" [⟨"a\nb", "c"⟩] false =
      (.error (.editNotFound "a\nb"), "a\r\nb") := ⟨rfl, rfl⟩

/-- Claim C5 (code bug): an edit with empty oldText is not rejected —
`"".split('\n')` is `[""]`, so the `oldLines.length === 0` guard behind
the `Edit operation contains empty oldText` message is dead code, and the
empty oldText instead matches the document's first empty line: on
`"x\n\ny"` both entry points happily apply the edit. -/
theorem mcpC5_empty_oldText_not_rejected :
    splitNl (replaceCrLf "") = [""] ∧
    applyFileEdits "x\n\ny" [⟨"", "z"⟩] false =
      (.ok (.diff "x\n\ny" "x\nz\ny"), "x\nz\ny") ∧
    editFile "x\n\ny" [⟨"", "z"⟩] false =
      (.ok (.diff "x\n\ny" "x\nz\ny"), "x\nz\ny") := ⟨rfl, rfl, rfl⟩

/-- Claim C6: when, after the edits before it have been applied to the
in-memory document, some edit's normalized oldText has no match in the
current document, the whole application fails with EditNotFound carrying
that edit's oldText, and the on-disk content is byte-for-byte the
original — in both `applyFileEdits` and `editFile` the write happens only
after every edit succeeded. -/
theorem mcpC6_unmatched_edit_leaves_file_untouched
    (content : String) (pre : List EditOp) (e : EditOp) (post : List EditOp)
    (dryRun : Bool) (d : String) (b : Bool)
    (hpre : applyEditsCore content false pre = .ok (d, b))
    (hnone : findFirstMatch (splitNl d) (splitNl (replaceCrLf e.oldText))
        (replaceCrLf e.oldText) = none) :
    applyFileEdits content (pre ++ e :: post) dryRun =
      (.error (.editNotFound e.oldText), content) ∧
    editFile content (pre ++ e :: post) dryRun =
      (.error (.editNotFound e.oldText), content) := by
  have hlen : ¬ (splitNl (replaceCrLf e.oldText)).length = 0 := by
    simpa using splitNl_ne_nil (replaceCrLf e.oldText)
  have hcore : applyEditsCore content false (pre ++ e :: post) =
      .error (.editNotFound e.oldText) := by
    rw [applyEditsCore_append, hpre]
    show applyEditsCore d b (e :: post) = _
    rw [applyEditsCore]
    dsimp only
    rw [if_neg hlen, hnone]
  exact ⟨by simp [applyFileEdits, hcore], by simp [editFile, hcore]⟩

/-- Witness for C6: the single edit `"zzz" -> "y"` has no match in
`"a\nb"`, so both entry points report EditNotFound and leave the file
content untouched. -/
theorem mcpC6_witness :
    applyFileEdits "a\nb" [⟨"zzz", "y"⟩] false =
      (.error (.editNotFound "zzz"), "a\nb") ∧
    editFile "a\nb" [⟨"zzz", "y"⟩] false =
      (.error (.editNotFound "zzz"), "a\nb") := by
  have h := mcpC6_unmatched_edit_leaves_file_untouched "a\nb" [] ⟨"zzz", "y"⟩ []
    false "a\nb" false rfl rfl
  simpa using h

/-- Counterexample to claim C7: with an empty edit list and dryRun true,
`editFile` leaves the file alone but returns the `No changes made`
message instead of the computed unified diff of the (unchanged) text. -/
theorem mcpC7_counterexample :
    editFile "a" [] true = (.ok .noChanges, "a") ∧
    EditOutput.noChanges ≠ EditOutput.diff "a" "a" := ⟨rfl, by simp⟩

/-- Claim C7 (amended): with dryRun true neither entry point ever changes
the stored file content, however many edits are supplied;
`applyFileEdits` then still returns the computed unified diff for every
successful run, and `editFile` does so whenever the edit list is
non-empty, returning its `No changes made` message for the empty list. -/
theorem mcpC7_amended (content : String) (edits : List EditOp) :
    (editFile content edits true).2 = content ∧
    (applyFileEdits content edits true).2 = content ∧
    (∀ out, (applyFileEdits content edits true).1 = .ok out →
      ∃ m, out = .diff content m) ∧
    (edits ≠ [] → ∀ out, (editFile content edits true).1 = .ok out →
      ∃ m, out = .diff content m) ∧
    (editFile content [] true).1 = .ok .noChanges := by
  have hempty : (editFile content [] true).1 = .ok EditOutput.noChanges := by
    simp [editFile, applyEditsCore]
  cases hcore : applyEditsCore content false edits with
  | error err =>
    refine ⟨by simp [editFile, hcore], by simp [applyFileEdits, hcore], ?_, ?_, hempty⟩
    · intro out hout
      simp [applyFileEdits, hcore] at hout
    · intro _ out hout
      simp [editFile, hcore] at hout
  | ok p =>
    obtain ⟨m, flag⟩ := p
    refine ⟨?_, by simp [applyFileEdits, hcore], ?_, ?_, hempty⟩
    · cases flag <;> simp [editFile, hcore]
    · intro out hout
      simp [applyFileEdits, hcore] at hout
      exact ⟨m, hout.symm⟩
    · intro hne out hout
      obtain ⟨e, rest, rfl⟩ : ∃ e rest, edits = e :: rest := by
        cases edits with
        | nil => exact absurd rfl hne
        | cons e rest => exact ⟨e, rest, rfl⟩
      have hflag : flag = true := applyEditsCore_ok_flag e rest content m false flag hcore
      subst hflag
      simp [editFile, hcore] at hout
      exact ⟨m, hout.symm⟩

/-- Witness for C7 (amended): a dry-run single edit leaves the file
untouched while the result is a diff of the original text; the empty
list yields the `No changes made` message. -/
theorem mcpC7_amended_witness :
    (editFile "a" [⟨"a", "b"⟩] true).2 = "a" ∧
    (∃ m, EditOutput.diff "a" "b" = EditOutput.diff "a" m) ∧
    (editFile "a" [] true).1 = .ok .noChanges := by
  have h := mcpC7_amended "a" [⟨"a", "b"⟩]
  exact ⟨h.1, h.2.2.2.1 (by simp) (EditOutput.diff "a" "b") rfl, (mcpC7_amended "a" []).2.2.2.2⟩

/-! ## Cache theorems (claims C8, C9, C10) -/

/-- Claim C8 (code bug): the cache size does exceed the configured
capacity. With maxSize 1, setting the key `""` and then `"a"` leaves two
entries: at capacity the oldest key is `""`, the truthiness guard
`if (oldestKey)` treats it as falsy and skips the eviction. (With
maxSize 0 even the first set overflows, since nothing can be evicted from
an empty map.) -/
theorem mcpC8_size_exceeds_capacity :
    (cacheSet 1 60000 (cacheSet 1 60000 emptyCache 0 "" "v") 1 "a" "w").entries.length = 2 ∧
    ¬ (2 ≤ 1) ∧
    (cacheSet 0 60000 emptyCache 0 "a" "v").entries.length = 1 := ⟨rfl, by simp, rfl⟩

/-- Claim C9: `set` schedules a deletion at `now + ttl` and never cancels
the timers of earlier sets of the same key: after inserting `k` at `t0`
and again at `t1 < t0 + ttl` (with the cache's configured capacity 1000),
both timers are pending, the fresh value is in the map, and when the
earlier timer fires at `t0 + ttl` its unconditional `cache.delete` removes
the fresh entry — strictly before that entry's own TTL boundary
`t1 + ttl`. -/
theorem mcpC9_stale_timer_evicts_fresh_entry (ttl t0 t1 : Nat) (k v1 v2 : String)
    (h01 : t0 < t1) (_h1ttl : t1 < t0 + ttl) :
    (cacheSet 1000 ttl (cacheSet 1000 ttl emptyCache t0 k v1) t1 k v2).pending
      = [(k, t0 + ttl), (k, t1 + ttl)] ∧
    mapGet (cacheSet 1000 ttl (cacheSet 1000 ttl emptyCache t0 k v1) t1 k v2).entries k
      = some v2 ∧
    mapGet (fireDue (cacheSet 1000 ttl (cacheSet 1000 ttl emptyCache t0 k v1) t1 k v2)
      (t0 + ttl)).entries k = none ∧
    t0 + ttl < t1 + ttl := by
  have hev0 : evictIfFull 1000 ([] : List (String × String)) = [] := by
    unfold evictIfFull
    rw [if_neg (by decide)]
  have hev1 : evictIfFull 1000 [(k, v1)] = [(k, v1)] := by
    unfold evictIfFull
    rw [if_neg (by simp)]
  have hst1 : cacheSet 1000 ttl emptyCache t0 k v1 =
      ⟨[(k, v1)], [(k, t0 + ttl)]⟩ := by
    simp [cacheSet, emptyCache, hev0, mapSet, mapHasKey]
  have hst2 : cacheSet 1000 ttl ⟨[(k, v1)], [(k, t0 + ttl)]⟩ t1 k v2 =
      ⟨[(k, v2)], [(k, t0 + ttl), (k, t1 + ttl)]⟩ := by
    simp [cacheSet, hev1, mapSet, mapHasKey, mapUpdate]
  rw [hst1, hst2]
  refine ⟨rfl, by simp [mapGet], ?_, by omega⟩
  simp [fireDue, mapGet]

/-- Witness for C9: with TTL 10, inserting `"p"` at time 0 and again at
time 5, the timer from the first insertion fires at time 10 and deletes
the fresh value set at time 5 — five ticks before its own TTL boundary. -/
theorem mcpC9_witness :
    mapGet (fireDue (cacheSet 1000 10 (cacheSet 1000 10 emptyCache 0 "p" "a") 5 "p" "b")
      (0 + 10)).entries "p" = none ∧
    0 + 10 < 5 + 10 := by
  have h := mcpC9_stale_timer_evicts_fresh_entry 10 0 5 "p" "a" "b"
    (by decide) (by decide)
  exact ⟨h.2.2.1, h.2.2.2⟩

/-- Counterexample to claim C10: at capacity 2 with oldest entry keyed by
the empty string, setting the already-present key `"b"` does not evict
the oldest entry — the truthiness guard skips it — so the claim's
unconditional "the oldest entry is evicted" fails. -/
theorem mcpC10_counterexample :
    (cacheSet 2 60000 ⟨[("", "x"), ("b", "y")], []⟩ 7 "b" "v").entries
      = [("", "x"), ("b", "v")] := rfl

/-- Update-in-place on a key the map holds yields that value on lookup. -/
theorem mapGet_update_self (m : List (String × String)) (k v : String)
    (h : mapHasKey m k = true) :
    mapGet (mapUpdate m k v) k = some v := by
  induction m with
  | nil => simp [mapHasKey] at h
  | cons p rest ih =>
    by_cases hpk : p.1 = k
    · simp [mapUpdate, mapGet, hpk]
    · have h2 : mapHasKey rest k = true := by simpa [mapHasKey, hpk] using h
      simp [mapUpdate, mapGet, hpk, ih h2]

/-- Update-in-place does not create entries under other keys. -/
theorem mapGet_update_none (m : List (String × String)) (k v j : String)
    (hj : ∀ p ∈ m, p.1 ≠ j) (hkj : k ≠ j) :
    mapGet (mapUpdate m k v) j = none := by
  induction m with
  | nil => simp [mapUpdate, mapGet]
  | cons p rest ih =>
    have hhead : p.1 ≠ j := hj p (List.mem_cons_self p rest)
    have hrest : ∀ q ∈ rest, q.1 ≠ j := fun q hq => hj q (List.mem_cons_of_mem p hq)
    by_cases hpk : p.1 = k
    · simp [mapUpdate, mapGet, hpk, hkj, ih hrest]
    · simp [mapUpdate, mapGet, hpk, hhead, ih hrest]

/-- Update-in-place preserves the number of entries. -/
theorem length_mapUpdate (m : List (String × String)) (k v : String) :
    (mapUpdate m k v).length = m.length := by
  induction m with
  | nil => rfl
  | cons p rest ih => simp [mapUpdate, ih]

/-- Deleting a key a map does not hold is the identity. -/
theorem mapDelete_eq_self (m : List (String × String)) (k : String)
    (h : ∀ p ∈ m, p.1 ≠ k) : mapDelete m k = m := by
  induction m with
  | nil => rfl
  | cons q t ih =>
    have hq : q.1 ≠ k := h q (List.mem_cons_self q t)
    simp [mapDelete, hq, ih fun p hp => h p (List.mem_cons_of_mem q hp)]

/-- Deleting the head key of a map whose tail does not repeat it returns
the tail. -/
theorem mapDelete_head (e0 : String × String) (rest : List (String × String))
    (h : ∀ p ∈ rest, p.1 ≠ e0.1) : mapDelete (e0 :: rest) e0.1 = rest := by
  simp [mapDelete, mapDelete_eq_self rest e0.1 h]

/-- At capacity with a truthy oldest key, `set` deletes that key before
inserting. -/
theorem evictIfFull_at_capacity (maxSize : Nat) (e0 : String × String)
    (rest : List (String × String))
    (hge : (e0 :: rest).length ≥ maxSize) (hne : e0.1 ≠ "") :
    evictIfFull maxSize (e0 :: rest) = mapDelete (e0 :: rest) e0.1 := by
  unfold evictIfFull
  rw [if_pos hge]
  show (if e0.1 ≠ "" then mapDelete (e0 :: rest) e0.1 else e0 :: rest) = _
  rw [if_pos hne]

/-- Claim C10 (amended): when `set` is called while the cache holds
exactly capacity-many entries, the oldest entry is evicted — provided its
key is non-empty, since the truthiness guard `if (oldestKey)` skips the
eviction for an empty-string oldest key — even if the key being set is
already present elsewhere in the map; updating an existing key at
capacity thus removes an unrelated entry and leaves the cache strictly
below capacity. -/
theorem mcpC10_amended (maxSize ttl now : Nat) (e0 : String × String)
    (rest : List (String × String)) (pend : List (String × Nat)) (k v : String)
    (hcap : (e0 :: rest).length = maxSize)
    (hne : e0.1 ≠ "")
    (hkey : k ≠ e0.1)
    (hpresent : mapHasKey rest k = true)
    (hnodup : ((e0 :: rest).map fun p => p.1).Nodup) :
    mapGet (cacheSet maxSize ttl ⟨e0 :: rest, pend⟩ now k v).entries e0.1 = none ∧
    (cacheSet maxSize ttl ⟨e0 :: rest, pend⟩ now k v).entries.length + 1 = maxSize ∧
    mapGet (cacheSet maxSize ttl ⟨e0 :: rest, pend⟩ now k v).entries k = some v := by
  have hnotmem : e0.1 ∉ rest.map fun p => p.1 := by
    rw [List.map_cons, List.nodup_cons] at hnodup
    exact hnodup.1
  have hfresh : ∀ p ∈ rest, p.1 ≠ e0.1 := by
    intro p hp hcontra
    exact hnotmem (hcontra ▸ List.mem_map_of_mem (fun q => q.1) hp)
  have hdel : mapDelete (e0 :: rest) e0.1 = rest := mapDelete_head e0 rest hfresh
  have hentries : (cacheSet maxSize ttl ⟨e0 :: rest, pend⟩ now k v).entries
      = mapUpdate rest k v := by
    show mapSet (evictIfFull maxSize (e0 :: rest)) k v = _
    rw [evictIfFull_at_capacity maxSize e0 rest (by omega) hne, hdel]
    simp [mapSet, hpresent]
  rw [hentries]
  refine ⟨mapGet_update_none rest k v e0.1 hfresh hkey, ?_,
    mapGet_update_self rest k v hpresent⟩
  rw [length_mapUpdate]
  simp at hcap
  omega

/-- Witness for C10 (amended): capacity 2, entries keyed `"a"` then
`"b"`; setting `"b"` again evicts `"a"` and leaves a single entry. -/
theorem mcpC10_amended_witness :
    mapGet (cacheSet 2 60000 ⟨[("a", "x"), ("b", "y")], []⟩ 7 "b" "v").entries "a" = none ∧
    (cacheSet 2 60000 ⟨[("a", "x"), ("b", "y")], []⟩ 7 "b" "v").entries.length + 1 = 2 ∧
    mapGet (cacheSet 2 60000 ⟨[("a", "x"), ("b", "y")], []⟩ 7 "b" "v").entries "b"
      = some "v" := by
  have h := mcpC10_amended 2 60000 7 ("a", "x") [("b", "y")] [] "b" "v"
    rfl (by simp) (by simp) (by simp [mapHasKey]) (by simp)
  exact h

end MCPFS
